import Mathlib

/-!
Verification of `lib/spack/spack/cmd/context.py`.

Shallow embedding conventions:
* A resolved (concrete) spec is a DAG with one node per package name; we
  represent it flatly as a root name plus a node list, with edges referring to
  dependency nodes by name (`CSpec`).  This mirrors spack concrete specs, which
  have a unique node per package name.
* The external `Spec` class (parsing, concretization, `dag_hash`, `to_dict`,
  `from_dict`, `traverse`) lives outside the repository sources; following the
  design document those parts are modelled from the spec.  The content hash is
  "the graph's identity", so `dag_hash` is modelled as the identity injection
  into the hash type.
* Python exceptions / `tty.die` are modelled with `Except Err`; a function
  that returns `Except.error` has aborted before producing any new state
  (every `die` in the source precedes the corresponding mutation).
* Python dicts are modelled as insertion-ordered association lists with
  `lookupDict` / `insertDict` / `eraseKey`.
-/

/-- Typed dependency edges of a resolved graph (`link`, `run`, `build`). -/
inductive DepType : Type where
  | link : DepType
  | run : DepType
  | build : DepType
deriving DecidableEq

/-- One package node of a resolved graph: package name, resolved version and
typed edges to dependency nodes (referenced by package name). -/
structure Node : Type where
  name : String
  version : Nat
  deps : List (DepType × String)
deriving DecidableEq

/-- A resolved dependency graph (a concrete spec): a root package name and the
node list of the graph.  Concrete spack specs carry a unique node per package
name, which the flat node list mirrors. -/
structure CSpec : Type where
  root : String
  nodes : List Node
deriving DecidableEq

/-- Modelled from the spec: the content hash is a deterministic identity for a
resolved graph ("the hash is the graph's identity and cache key"), so the hash
type is the graph value itself, making the hash function injective by
construction. -/
abbrev SpecHash : Type := CSpec

/-- Modelled from the spec: `Spec.dag_hash()` — the deterministic content hash
of a resolved graph. -/
def CSpec.dag_hash (s : CSpec) : SpecHash := s

/-- Python `d[k]` lookup on a dict modelled as an association list. -/
def lookupDict {α β : Type} [DecidableEq α] (m : List (α × β)) (k : α) : Option β :=
  (m.find? (fun p => decide (p.1 = k))).map (fun p => p.2)

/-- Python `d[k] = v`: replace the binding if the key is present, else append. -/
def insertDict {α β : Type} [DecidableEq α] (m : List (α × β)) (k : α) (v : β) :
    List (α × β) :=
  if (m.find? (fun p => decide (p.1 = k))).isSome then
    m.map (fun p => if p.1 = k then (k, v) else p)
  else
    m ++ [(k, v)]

/-- Python `del d[k]` (the key is assumed present by callers; `Context.remove`
checks presence separately, mirroring `KeyError`). -/
def eraseKey {α β : Type} [DecidableEq α] (m : List (α × β)) (k : α) : List (α × β) :=
  m.filter (fun p => !decide (p.1 = k))

/-- Error taxonomy of the command module.  `partWriteState` models the
`PartialWriteState` condition ("Partial write state, run 'spack context
repair'"), `attributeError` models a Python `AttributeError` raised by
attribute access on an object of the wrong kind, `keyError` a Python
`KeyError`. -/
inductive Err : Type where
  | duplicatePackage : Err
  | notFound : Err
  | partWriteState : Err
  | contextNotFound : Err
  | keyError : Err
  | attributeError : Err
deriving DecidableEq

/-- The external capabilities consumed by the context module, specified only at
their interface boundary (spec §6): spec-string parsing (`Spec(x).name`),
concretization (`Spec.concretize`), and the re-resolution performed by
`upgrade_dependency_version` (clear resolved state, relax the named
dependency's version to "any", re-concretize). -/
structure Resolver : Type where
  parseName : String → String
  conc : String → CSpec
  upgradeDep : CSpec → String → CSpec

/-- In-memory state of one context (`Context.__init__`): user requests, the
aligned prefix of resolution hashes, the hash-indexed cache of resolved
graphs, and the pinned library/binary overrides. -/
structure Context : Type where
  name : String
  user_specs : List String
  concretized_order : List SpecHash
  specs_by_hash : List (SpecHash × CSpec)
  common_libs : List (String × SpecHash)
  common_bins : List (String × SpecHash)
deriving DecidableEq

/-- Source `Context.__init__`: a fresh context has empty requests, resolutions, graph
cache and pins. -/
def Context.empty (name : String) : Context :=
  { name := name, user_specs := [], concretized_order := [], specs_by_hash := [],
    common_libs := [], common_bins := [] }

/-- Source `Context.add`: die with `DuplicatePackage` when a request with the same
package name already exists, else append the request. -/
def Context.add (R : Resolver) (c : Context) (user_spec : String) : Except Err Context :=
  if c.user_specs.any (fun x => decide (R.parseName x = R.parseName user_spec)) then
    Except.error Err.duplicatePackage
  else
    Except.ok { c with user_specs := c.user_specs ++ [user_spec] }

/-- Source `Context.remove`: find the first request whose package name matches; die
with `NotFound` when there is none.  Delete the request; when its index is
inside the concretized prefix also delete the aligned resolution hash and its
`specs_by_hash` entry (`del` on a missing key would be a `KeyError`). -/
def Context.remove (R : Resolver) (c : Context) (query : String) : Except Err Context :=
  match c.user_specs.findIdx? (fun x => decide (R.parseName x = R.parseName query)) with
  | none => Except.error Err.notFound
  | some i =>
    if hi : i < c.concretized_order.length then
      let spec_hash := c.concretized_order.get ⟨i, hi⟩
      match lookupDict c.specs_by_hash spec_hash with
      | none => Except.error Err.keyError
      | some _ =>
        Except.ok { c with
          user_specs := c.user_specs.eraseIdx i,
          concretized_order := c.concretized_order.eraseIdx i,
          specs_by_hash := eraseKey c.specs_by_hash spec_hash }
    else
      Except.ok { c with user_specs := c.user_specs.eraseIdx i }

/-- The loop body of `Context.concretize`: for each not-yet-concretized user
spec (in order) concretize it, record it under its hash, and append the hash
to the concretized order.  Returns the final `specs_by_hash`, the hashes
appended (in order) and the newly concretized specs (in order). -/
def concLoop (R : Resolver) :
    List String → List (SpecHash × CSpec) →
      List (SpecHash × CSpec) × List SpecHash × List CSpec
  | [], sbh => (sbh, [], [])
  | us :: rest, sbh =>
    let spec := R.conc us
    let r := concLoop R rest (insertDict sbh spec.dag_hash spec)
    (r.1, spec.dag_hash :: r.2.1, spec :: r.2.2)

/-- Source `Context.concretize`: concretize only the suffix of `user_specs` beyond
`len(concretized_order)`; return the mutated context and the list of newly
concretized specs. -/
def Context.concretize (R : Resolver) (c : Context) : Context × List CSpec :=
  let r := concLoop R (c.user_specs.drop c.concretized_order.length) c.specs_by_hash
  ({ c with specs_by_hash := r.1,
            concretized_order := c.concretized_order ++ r.2.1 }, r.2.2)

/-- The filtered dependency names of a node for the given edge types. -/
def depsOf (nd : Node) (dts : List DepType) : List String :=
  (nd.deps.filter (fun p => dts.contains p.1)).map (fun p => p.2)

/-- Modelled from the spec: `Spec.traverse` — depth-first preorder walk of the
graph along edges of the given types, visiting each package node at most once
(worklist algorithm, structurally recursive on a fuel that bounds the total
work so that the definition evaluates by reduction). -/
def travGo (nodes : List Node) (dts : List DepType) :
    Nat → List Node → List String → List Node
  | 0, v, _ => v
  | _ + 1, v, [] => v
  | fuel + 1, v, cur :: rest =>
    if v.any (fun nd => decide (nd.name = cur)) then
      travGo nodes dts fuel v rest
    else
      match nodes.find? (fun nd => decide (nd.name = cur)) with
      | none => travGo nodes dts fuel v rest
      | some nd =>
        travGo nodes dts fuel (travGo nodes dts fuel (v ++ [nd]) (depsOf nd dts)) rest

/-- A fuel bound covering the total work of a traversal: one unit per worklist
entry ever processed (the root plus at most every edge of the graph) and one
per node visit. -/
def fuelFor (s : CSpec) : Nat :=
  1 + s.nodes.length + (s.nodes.map (fun nd => nd.deps.length)).sum

/-- Modelled from the spec: `spec.traverse(deptype=dts)` starting from the
root node. -/
def CSpec.traverse (s : CSpec) (dts : List DepType) : List Node :=
  travGo s.nodes dts (fuelFor s) [] [s.root]

/-- The edge types walked by `_get_environment_specs`. -/
def linkRun : List DepType := [DepType.link, DepType.run]

/-- All edge types (used by `dep_name in spec` and `spec[dep_name]`). -/
def allDepTypes : List DepType := [DepType.link, DepType.run, DepType.build]

/-- Modelled from the spec: Python `dep_name in spec` — whether some node of
the graph carries that package name. -/
def CSpec.containsName (s : CSpec) (n : String) : Bool :=
  (s.traverse allDepTypes).any (fun nd => decide (nd.name = n))

/-- Modelled from the spec: `spec[dep_name]` — the node of the graph carrying
that package name (`KeyError`, i.e. `none`, when absent). -/
def CSpec.getDep (s : CSpec) (n : String) : Option Node :=
  (s.traverse allDepTypes).find? (fun nd => decide (nd.name = n))

/-- The loop of `Context.upgrade_dependency` (non-dry-run effects): iterate the
concretized order; for a root containing `dep_name`, re-resolve it, record the
new spec under its new hash (mutating the cache in place, visible to later
iterations) and collect the new `dep_name` node; for other roots carry the old
hash over unchanged at the same position. -/
def upgradeLoop (R : Resolver) (dep_name : String) :
    List (SpecHash × CSpec) → List SpecHash →
      Except Err (List SpecHash × List (SpecHash × CSpec) × List Node)
  | sbh, [] => Except.ok ([], sbh, [])
  | sbh, spec_hash :: rest =>
    match lookupDict sbh spec_hash with
    | none => Except.error Err.keyError
    | some spec =>
      if spec.containsName dep_name then
        let new_spec := R.upgradeDep spec dep_name
        match new_spec.getDep dep_name with
        | none => Except.error Err.keyError
        | some d =>
          match upgradeLoop R dep_name (insertDict sbh new_spec.dag_hash new_spec) rest with
          | Except.error e => Except.error e
          | Except.ok r => Except.ok (new_spec.dag_hash :: r.1, r.2.1, d :: r.2.2)
      else
        match upgradeLoop R dep_name sbh rest with
        | Except.error e => Except.error e
        | Except.ok r => Except.ok (spec_hash :: r.1, r.2.1, r.2.2)

/-- Source `Context.upgrade_dependency`: in dry-run mode nothing is mutated and
nothing is returned; otherwise install the new concretized order and cache and
return `new_deps[0] if new_deps else None`. -/
def Context.upgrade_dependency (R : Resolver) (c : Context) (dep_name : String)
    (dry_run : Bool) : Except Err (Context × Option Node) :=
  match upgradeLoop R dep_name c.specs_by_hash c.concretized_order with
  | Except.error e => Except.error e
  | Except.ok r =>
    if dry_run then Except.ok (c, none)
    else
      Except.ok ({ c with concretized_order := r.1, specs_by_hash := r.2.1 },
                 r.2.2.head?)

/-- One step of the `_get_environment_specs` fold: if the package name was
already selected, emit a conflict warning pairing the existing winner with the
dropped candidate; else select the node for its name. -/
def envStep (acc : List (String × Node) × List (Node × Node)) (dep : Node) :
    List (String × Node) × List (Node × Node) :=
  match lookupDict acc.1 dep.name with
  | some w => (acc.1, acc.2 ++ [(w, dep)])
  | none => (acc.1 ++ [(dep.name, dep)], acc.2)

/-- The root loop of `_get_environment_specs`: walk each resolved root (in
`concretized_order` order) over its `link`/`run` edges, folding every reached
node into the name-keyed selection. -/
def envLoop (sbh : List (SpecHash × CSpec)) :
    List SpecHash → List (String × Node) × List (Node × Node) →
      Except Err (List (String × Node) × List (Node × Node))
  | [], acc => Except.ok acc
  | h :: rest, acc =>
    match lookupDict sbh h with
    | none => Except.error Err.keyError
    | some s => envLoop sbh rest ((s.traverse linkRun).foldl envStep acc)

/-- Source `Context._get_environment_specs`: the name-keyed selection of at most one
node per package name across all resolved roots, together with the conflict
warnings emitted (each warning names the winning and the dropped node). -/
def Context.get_environment_specs (c : Context) :
    Except Err (List (String × Node) × List (Node × Node)) :=
  envLoop c.specs_by_hash c.concretized_order ([], [])

/-- The loop of `Context.install`: look every concretized hash up and install
it (`do_install` is an external effect; the returned list records the hashes
installed, in order). -/
def installLoop (sbh : List (SpecHash × CSpec)) :
    List SpecHash → Except Err (List SpecHash)
  | [] => Except.ok []
  | h :: rest =>
    match lookupDict sbh h with
    | none => Except.error Err.keyError
    | some _ =>
      match installLoop sbh rest with
      | Except.error e => Except.error e
      | Except.ok l => Except.ok (h :: l)

/-- Source `Context.install`: install every spec of the concretized order. -/
def Context.install (c : Context) : Except Err (List SpecHash) :=
  installLoop c.specs_by_hash c.concretized_order

/-- Modelled from the spec: the serialized form of one graph node (written by
`Spec.to_dict(all_deps=True)` with dependencies embedded). -/
structure NodeDict : Type where
  dname : String
  dversion : Nat
  ddeps : List (DepType × String)
deriving DecidableEq

/-- Modelled from the spec: the serialized form of a full resolved graph. -/
structure SpecDict : Type where
  droot : String
  dnodes : List NodeDict
deriving DecidableEq

/-- Modelled from the spec: `Spec.to_dict(all_deps=True)` — serialize a graph
with all dependency nodes embedded. -/
def Spec.to_dict (s : CSpec) : SpecDict :=
  { droot := s.root,
    dnodes := s.nodes.map (fun nd => { dname := nd.name, dversion := nd.version, ddeps := nd.deps }) }

/-- Modelled from the spec: `Spec.from_dict` — rebuild a graph from its
serialized form. -/
def Spec.from_dict (d : SpecDict) : CSpec :=
  { root := d.droot,
    nodes := d.dnodes.map (fun t => { name := t.dname, version := t.dversion, deps := t.ddeps }) }

/-- The content of `context.yaml` (`Context.to_dict`): requests, resolution
order and the pinned libraries/binaries. -/
structure ContextDict : Type where
  user_specs : List String
  concretized_order : List SpecHash
  common_libs : List (String × SpecHash)
  common_bins : List (String × SpecHash)
deriving DecidableEq

/-- Source `Context.to_dict`. -/
def Context.to_dict (c : Context) : ContextDict :=
  { user_specs := c.user_specs, concretized_order := c.concretized_order,
    common_libs := c.common_libs, common_bins := c.common_bins }

/-- Source `Context.from_dict`: rebuild a context from `context.yaml` content; the
graph cache is not part of the dict and starts empty (read fills it from
`full_specs.json` separately). -/
def Context.from_dict (name : String) (d : ContextDict) : Context :=
  { name := name, user_specs := d.user_specs, concretized_order := d.concretized_order,
    specs_by_hash := [], common_libs := d.common_libs, common_bins := d.common_bins }

/-- What one committed context directory holds: `context.yaml` plus
`full_specs.json` (`store_specs_by_hash` serializes the graph cache value-wise
with `Spec.to_dict`). -/
structure Payload : Type where
  contextDict : ContextDict
  fullSpecs : List (SpecHash × SpecDict)
deriving DecidableEq

/-- The three sibling paths of the durable store for one context name `N`:
staging `_N` (`tmp_new`), committed `N` (`dest`), rollback `.N` (`tmp_old`).
`none` means the path does not exist. -/
structure FS : Type where
  tmp_new : Option Payload
  dest : Option Payload
  tmp_old : Option Payload
deriving DecidableEq

/-- The staged payload materialized under `_N` by `write` (step 2):
`context.yaml` from `Context.to_dict` and `full_specs.json` from
`store_specs_by_hash`. -/
def stagePayload (c : Context) : Payload :=
  { contextDict := c.to_dict,
    fullSpecs := c.specs_by_hash.map (fun p => (p.1, Spec.to_dict p.2)) }

/-- Write protocol step 2: materialize the complete new state under `_N`. -/
def writeStep2 (fs : FS) (c : Context) : FS :=
  { fs with tmp_new := some (stagePayload c) }

/-- Write protocol step 3: if `N` exists, rename it to `.N`. -/
def writeStep3 (fs : FS) : FS :=
  if fs.dest.isSome then { fs with tmp_old := fs.dest, dest := none } else fs

/-- Write protocol step 4 (the commit point): rename `_N` to `N`. -/
def writeStep4 (fs : FS) : FS :=
  { fs with dest := fs.tmp_new, tmp_new := none }

/-- Write protocol step 5: best-effort removal of `.N`. -/
def writeStep5 (fs : FS) : FS :=
  if fs.tmp_old.isSome then { fs with tmp_old := none } else fs

/-- Source `write`: die with the partial-write error when `_N` or `.N` already exists
(before touching any path), else run steps 2-5 of the protocol. -/
def write (fs : FS) (c : Context) : Except Err FS :=
  if fs.tmp_new.isSome || fs.tmp_old.isSome then Except.error Err.partWriteState
  else Except.ok (writeStep5 (writeStep4 (writeStep3 (writeStep2 fs c))))

/-- The source's `read` (named `readContext` here because plain `read` would
collide with the `MonadReader.read` export): die with the partial-write error
when `_N` or `.N` exists; opening `context.yaml` under a missing committed
directory fails (the context was not found); else rebuild the context from
`context.yaml` and fill the graph cache from `full_specs.json`. -/
def readContext (fs : FS) (context_name : String) : Except Err Context :=
  if fs.tmp_new.isSome || fs.tmp_old.isSome then Except.error Err.partWriteState
  else
    match fs.dest with
    | none => Except.error Err.contextNotFound
    | some p =>
      let c := Context.from_dict context_name p.contextDict
      Except.ok { c with
        specs_by_hash := p.fullSpecs.map (fun q => (q.1, Spec.from_dict q.2)) }

/-- Source `repair` as written: after binding `c = Context(context_name)`
the body evaluates `write_paths(context)`, but `context` is the module-level
command dispatch function (the local is bound as `c` and never used), so the
attribute access `context.name` inside `write_paths` raises `AttributeError`
before any filesystem path is examined or changed. -/
def repair (_fs : FS) (_context_name : String) : Except Err FS :=
  Except.error Err.attributeError

/-- The loop of `context_install` would be `Context.install`; but line 326 of
the source evaluates `prepare_repository(context)` where `context` is the
module-level command dispatch function (the context read on the previous line
was bound to `contexts`), so attribute access `context.repo_path` raises
`AttributeError` before `Context.install` is ever invoked.  The first
component records the hashes actually installed by the handler, the second the
error it aborts with. -/
def context_install (fs : FS) (name : String) : List SpecHash × Option Err :=
  match readContext fs name with
  | Except.error e => ([], some e)
  | Except.ok _ => ([], some Err.attributeError)

/-- The Reconciliation Engine operations of claim C2. -/
inductive Op : Type where
  | addOp : String → Op
  | removeOp : String → Op
  | concOp : Op

/-- Run one operation against a context; a failed operation aborts the command
and leaves the state as it was. -/
def runOp (R : Resolver) (c : Context) : Op → Context
  | Op.addOp s =>
    match Context.add R c s with
    | Except.ok c2 => c2
    | Except.error _ => c
  | Op.removeOp s =>
    match Context.remove R c s with
    | Except.ok c2 => c2
    | Except.error _ => c
  | Op.concOp => (Context.concretize R c).1

/-- Run a sequence of operations starting from the empty context. -/
def runOps (R : Resolver) (name : String) (ops : List Op) : Context :=
  ops.foldl (runOp R) (Context.empty name)

/-! ### Association-list (dict) lemmas -/

theorem lookupDict_nil {α β : Type} [DecidableEq α] (k : α) :
    lookupDict ([] : List (α × β)) k = none := rfl

theorem lookupDict_append {α β : Type} [DecidableEq α] (m1 m2 : List (α × β)) (k : α) :
    lookupDict (m1 ++ m2) k = (lookupDict m1 k).or (lookupDict m2 k) := by
  simp only [lookupDict, List.find?_append]
  cases m1.find? (fun p => decide (p.1 = k)) <;> simp

theorem lookupDict_singleton_ne {α β : Type} [DecidableEq α] (k h : α) (v : β)
    (hne : h ≠ k) : lookupDict [(k, v)] h = none := by
  simp [lookupDict, List.find?, Ne.symm hne]

theorem find_map_update_ne {α β : Type} [DecidableEq α] (k h : α) (v : β) (hne : h ≠ k) :
    ∀ m : List (α × β),
      (m.map (fun p => if p.1 = k then (k, v) else p)).find? (fun p => decide (p.1 = h)) =
        m.find? (fun p => decide (p.1 = h))
  | [] => rfl
  | p :: t => by
    by_cases hp : p.1 = k
    · rw [List.map_cons, if_pos hp,
        List.find?_cons_of_neg _ (by simp [Ne.symm hne]),
        List.find?_cons_of_neg _ (by simp; intro hh; exact hne (hh.symm.trans hp))]
      exact find_map_update_ne k h v hne t
    · rw [List.map_cons, if_neg hp]
      by_cases hh : p.1 = h
      · rw [List.find?_cons_of_pos _ (by simp only [decide_eq_true_eq]; exact hh),
          List.find?_cons_of_pos _ (by simp only [decide_eq_true_eq]; exact hh)]
      · rw [List.find?_cons_of_neg _ (by simp [hh]), List.find?_cons_of_neg _ (by simp [hh])]
        exact find_map_update_ne k h v hne t

theorem find_map_update_self {α β : Type} [DecidableEq α] (k : α) (v : β) :
    ∀ m : List (α × β),
      (m.find? (fun p => decide (p.1 = k))).isSome = true →
      (m.map (fun p => if p.1 = k then (k, v) else p)).find? (fun p => decide (p.1 = k)) =
        some (k, v)
  | [], hs => by simp at hs
  | p :: t, hs => by
    by_cases hp : p.1 = k
    · rw [List.map_cons, if_pos hp, List.find?_cons_of_pos _ (by simp)]
    · rw [List.find?_cons_of_neg _ (by simp [hp])] at hs
      rw [List.map_cons, if_neg hp, List.find?_cons_of_neg _ (by simp [hp])]
      exact find_map_update_self k v t hs

theorem lookupDict_insert_ne {α β : Type} [DecidableEq α] (m : List (α × β)) (k h : α)
    (v : β) (hne : h ≠ k) : lookupDict (insertDict m k v) h = lookupDict m h := by
  unfold insertDict
  split
  · unfold lookupDict
    rw [find_map_update_ne k h v hne]
  · rw [lookupDict_append, lookupDict_singleton_ne k h v hne]
    cases lookupDict m h <;> simp

theorem lookupDict_insert_self {α β : Type} [DecidableEq α] (m : List (α × β)) (k : α)
    (v : β) : lookupDict (insertDict m k v) k = some v := by
  unfold insertDict
  split
  · rename_i hfind
    unfold lookupDict
    rw [find_map_update_self k v m hfind]
    rfl
  · rename_i hfind
    rw [lookupDict_append]
    have h0 : lookupDict m k = none := by
      simp only [lookupDict]
      cases hf : m.find? (fun p => decide (p.1 = k)) with
      | none => rfl
      | some p => rw [hf] at hfind; simp at hfind
    rw [h0]
    simp [lookupDict, List.find?]

theorem lookupDict_insert_isSome {α β : Type} [DecidableEq α] (m : List (α × β))
    (k h : α) (v : β) (hs : (lookupDict m h).isSome = true) :
    (lookupDict (insertDict m k v) h).isSome = true := by
  by_cases hk : h = k
  · subst hk; rw [lookupDict_insert_self]; rfl
  · rw [lookupDict_insert_ne m k h v hk]; exact hs

theorem find_eraseKey_ne {α β : Type} [DecidableEq α] (k h : α) (hne : h ≠ k) :
    ∀ m : List (α × β),
      (eraseKey m k).find? (fun p => decide (p.1 = h)) = m.find? (fun p => decide (p.1 = h))
  | [] => rfl
  | p :: t => by
    by_cases hp : p.1 = k
    · unfold eraseKey
      rw [List.filter_cons_of_neg (by simp [hp]),
        List.find?_cons_of_neg _ (by simp; intro hh; exact hne (hh.symm.trans hp))]
      exact find_eraseKey_ne k h hne t
    · unfold eraseKey
      rw [List.filter_cons_of_pos (by simp [hp])]
      by_cases hh : p.1 = h
      · rw [List.find?_cons_of_pos _ (by simp only [decide_eq_true_eq]; exact hh),
          List.find?_cons_of_pos _ (by simp only [decide_eq_true_eq]; exact hh)]
      · rw [List.find?_cons_of_neg _ (by simp [hh]), List.find?_cons_of_neg _ (by simp [hh])]
        exact find_eraseKey_ne k h hne t

theorem lookupDict_eraseKey_ne {α β : Type} [DecidableEq α] (m : List (α × β)) (k h : α)
    (hne : h ≠ k) : lookupDict (eraseKey m k) h = lookupDict m h := by
  unfold lookupDict
  rw [find_eraseKey_ne k h hne]

/-! ### Claims C8, C9, C10, C7, C1 -/

/-- C8: `add(request)` fails with `DuplicatePackage` whenever a request for
the same package name already exists in the context (and the request list —
indeed the whole state — is unchanged after the failed call); otherwise it
appends the request to the end of `requests`. -/
theorem claim_C8_add_duplicate (R : Resolver) (c : Context) (s : String) :
    ((∃ x ∈ c.user_specs, R.parseName x = R.parseName s) →
      Context.add R c s = Except.error Err.duplicatePackage ∧
      runOp R c (Op.addOp s) = c) ∧
    ((∀ x ∈ c.user_specs, R.parseName x ≠ R.parseName s) →
      Context.add R c s = Except.ok { c with user_specs := c.user_specs ++ [s] }) := by
  constructor
  · intro hex
    have hany : c.user_specs.any (fun x => decide (R.parseName x = R.parseName s)) = true := by
      rcases hex with ⟨x, hx, he⟩
      exact List.any_eq_true.mpr ⟨x, hx, by simpa using he⟩
    constructor
    · simp [Context.add, hany]
    · simp [runOp, Context.add, hany]
  · intro hall
    have hany : c.user_specs.any (fun x => decide (R.parseName x = R.parseName s)) = false := by
      rw [Bool.eq_false_iff]
      intro hc
      rcases List.any_eq_true.mp hc with ⟨x, hx, he⟩
      exact hall x hx (by simpa using he)
    simp [Context.add, hany]

/-- Witness for C8 at a concrete context: the second `add` of the same
package name fails with `DuplicatePackage` leaving the state unchanged, and a
fresh name is appended. -/
theorem claim_C8_add_duplicate_witness :
    (Context.add { parseName := fun s => s, conc := fun s => { root := s, nodes := [] },
                   upgradeDep := fun s _ => s }
       { Context.empty "ctx" with user_specs := ["mpileaks"] } "mpileaks" =
        Except.error Err.duplicatePackage) ∧
    (Context.add { parseName := fun s => s, conc := fun s => { root := s, nodes := [] },
                   upgradeDep := fun s _ => s }
       { Context.empty "ctx" with user_specs := ["mpileaks"] } "hdf5" =
        Except.ok { Context.empty "ctx" with user_specs := ["mpileaks", "hdf5"] }) := by
  constructor
  · exact ((claim_C8_add_duplicate _ _ _).1 (by simp) ).1
  · exact (claim_C8_add_duplicate _ _ _).2 (by simp)

/-- C9: `remove(query)` of a package name for which no request exists fails
with `NotFound`, and the entire context state is unchanged. -/
theorem claim_C9_remove_absent (R : Resolver) (c : Context) (q : String)
    (h : ∀ x ∈ c.user_specs, R.parseName x ≠ R.parseName q) :
    Context.remove R c q = Except.error Err.notFound ∧
    runOp R c (Op.removeOp q) = c := by
  have hidx : c.user_specs.findIdx? (fun x => decide (R.parseName x = R.parseName q)) = none := by
    rw [List.findIdx?_eq_none_iff]
    intro x hx
    simpa using h x hx
  constructor
  · simp [Context.remove, hidx]
  · simp [runOp, Context.remove, hidx]

/-- Witness for C9 at a concrete context. -/
theorem claim_C9_remove_absent_witness :
    Context.remove { parseName := fun s => s, conc := fun s => { root := s, nodes := [] },
                     upgradeDep := fun s _ => s }
      { Context.empty "ctx" with user_specs := ["mpileaks"] } "hdf5" =
        Except.error Err.notFound ∧
    runOp { parseName := fun s => s, conc := fun s => { root := s, nodes := [] },
            upgradeDep := fun s _ => s }
      { Context.empty "ctx" with user_specs := ["mpileaks"] } (Op.removeOp "hdf5") =
        { Context.empty "ctx" with user_specs := ["mpileaks"] } :=
  claim_C9_remove_absent _ _ _ (by simp)

/-- C10 (implicit): for every filesystem state and context name, the install
command handler aborts with an error — either the read fails, or the unbound
`context` name raises `AttributeError` in `prepare_repository(context)` —
before the installer is invoked on any resolved graph, so no package is ever
installed through this command. -/
theorem claim_C10_install_never_runs (fs : FS) (name : String) :
    (context_install fs name).1 = [] ∧ ((context_install fs name).2).isSome = true := by
  unfold context_install
  cases readContext fs name <;> simp

/-- C7: both `read` and `write` fail with the `PartialWriteState` error (the
check precedes every filesystem mutation, so no path is modified) whenever
the staging path `_N` or the rollback path `.N` exists; and `read` of a
context whose committed directory is absent fails with `ContextNotFound`. -/
theorem claim_C7_persistence_failures (fs : FS) (c : Context) (name : String) :
    (fs.tmp_new.isSome = true ∨ fs.tmp_old.isSome = true →
      readContext fs name = Except.error Err.partWriteState ∧
      write fs c = Except.error Err.partWriteState) ∧
    (fs.tmp_new = none → fs.tmp_old = none → fs.dest = none →
      readContext fs name = Except.error Err.contextNotFound) := by
  constructor
  · intro h
    have hb : (fs.tmp_new.isSome || fs.tmp_old.isSome) = true := by
      rcases h with h | h <;> simp [h]
    constructor
    · simp [readContext, hb]
    · simp [write, hb]
  · intro h1 h2 h3
    simp [readContext, h1, h2, h3]

/-- Witness for C7: a staging path left behind makes both operations fail,
and a clean but absent committed directory makes `read` fail with
`ContextNotFound`. -/
theorem claim_C7_persistence_failures_witness :
    (readContext { tmp_new := some { contextDict := Context.to_dict (Context.empty "c"),
                                     fullSpecs := [] }, dest := none, tmp_old := none } "c" =
        Except.error Err.partWriteState ∧
     write { tmp_new := some { contextDict := Context.to_dict (Context.empty "c"),
                               fullSpecs := [] }, dest := none, tmp_old := none }
       (Context.empty "c") = Except.error Err.partWriteState) ∧
    readContext { tmp_new := none, dest := none, tmp_old := none } "c" =
      Except.error Err.contextNotFound := by
  constructor
  · exact (claim_C7_persistence_failures _ (Context.empty "c") "c").1 (Or.inl rfl)
  · exact (claim_C7_persistence_failures
      { tmp_new := none, dest := none, tmp_old := none } (Context.empty "c") "c").2 rfl rfl rfl

/-- The committed context of the C1 crash scenario before the interrupted
write. -/
def c1Old : Context :=
  { Context.empty "c" with user_specs := ["mpileaks"] }

/-- The new context the interrupted write was persisting. -/
def c1New : Context :=
  { Context.empty "c" with user_specs := ["mpileaks", "hdf5"] }

/-- The durable-store state with `c1Old` committed and no crash residue. -/
def c1FS : FS :=
  { tmp_new := none, dest := some (stagePayload c1Old), tmp_old := none }

/-- C1 (evaluation of the code at the failing input): interrupt the write of
`c1New` after protocol step 3, leaving `.N` holding the prior state, `_N`
holding the new state and `N` missing.  The claim requires `repair` followed
by `read` to yield the new state, but `repair` as written evaluates
`write_paths(context)` where `context` is the module-level command dispatch
function (the local is bound as `c`), so it raises `AttributeError` without
repairing anything, and `read` still fails with the partial-write error
instead of returning `c1New`.  The same happens when the write is interrupted
before step 3. -/
theorem claim_C1_repair_broken :
    (repair (writeStep3 (writeStep2 c1FS c1New)) "c" = Except.error Err.attributeError ∧
     readContext (writeStep3 (writeStep2 c1FS c1New)) "c" = Except.error Err.partWriteState) ∧
    (repair (writeStep2 c1FS c1New) "c" = Except.error Err.attributeError ∧
     readContext (writeStep2 c1FS c1New) "c" = Except.error Err.partWriteState) := by
  refine ⟨⟨rfl, ?_⟩, ⟨rfl, ?_⟩⟩ <;> rfl

/-! ### Claim C3: concretize resolves only the pending suffix -/

theorem concLoop_order (R : Resolver) :
    ∀ (l : List String) (sbh : List (SpecHash × CSpec)),
      (concLoop R l sbh).2.1 = l.map (fun u => (R.conc u).dag_hash)
  | [], _ => rfl
  | u :: t, sbh => by
    simp only [concLoop, List.map_cons]
    rw [concLoop_order R t]

theorem concLoop_new (R : Resolver) :
    ∀ (l : List String) (sbh : List (SpecHash × CSpec)),
      (concLoop R l sbh).2.2 = l.map R.conc
  | [], _ => rfl
  | u :: t, sbh => by
    simp only [concLoop, List.map_cons]
    rw [concLoop_new R t]

/-- C3: `concretize()` resolves exactly the suffix of `requests` beyond
`len(resolutions)` (already-resolved entries are never re-resolved: `requests`
is unchanged and the old resolution prefix is kept intact); and calling
`concretize()` a second time with no intervening `add` performs no new
resolution work (it returns no new specs) and leaves the context state
unchanged. -/
theorem claim_C3_concretize_suffix_idem (R : Resolver) (c : Context) :
    ((Context.concretize R c).2 =
      (c.user_specs.drop c.concretized_order.length).map R.conc) ∧
    ((Context.concretize R c).1.user_specs = c.user_specs) ∧
    ((Context.concretize R c).1.concretized_order =
      c.concretized_order ++
        (c.user_specs.drop c.concretized_order.length).map (fun u => (R.conc u).dag_hash)) ∧
    Context.concretize R (Context.concretize R c).1 = ((Context.concretize R c).1, []) := by
  have h2 : (Context.concretize R c).1.user_specs = c.user_specs := rfl
  have h3 : (Context.concretize R c).1.concretized_order =
      c.concretized_order ++
        (c.user_specs.drop c.concretized_order.length).map (fun u => (R.conc u).dag_hash) := by
    simp only [Context.concretize]
    rw [concLoop_order]
  refine ⟨?_, h2, h3, ?_⟩
  · simp only [Context.concretize]
    rw [concLoop_new]
  · have hlen : (Context.concretize R c).1.user_specs.length ≤
        (Context.concretize R c).1.concretized_order.length := by
      rw [h2, h3]
      simp only [List.length_append, List.length_map, List.length_drop]
      omega
    have hdrop : (Context.concretize R c).1.user_specs.drop
        (Context.concretize R c).1.concretized_order.length = [] :=
      List.drop_eq_nil_of_le hlen
    conv_lhs => rw [Context.concretize, hdrop]
    simp only [concLoop, List.append_nil]

/-! ### Claim C5: write/read round-trip -/

theorem spec_to_from (s : CSpec) : Spec.from_dict (Spec.to_dict s) = s := by
  cases s with
  | mk root nodes =>
    simp only [Spec.to_dict, Spec.from_dict, List.map_map]
    congr 1
    induction nodes with
    | nil => rfl
    | cons nd t ih => simp only [List.map_cons, Function.comp_apply, ih]

theorem specs_roundtrip :
    ∀ l : List (SpecHash × CSpec),
      (l.map (fun p => (p.1, Spec.to_dict p.2))).map (fun q => (q.1, Spec.from_dict q.2)) = l
  | [] => rfl
  | p :: t => by
    simp only [List.map_cons, spec_to_from]
    rw [specs_roundtrip t]

/-- C5: round-trip persistence — writing any context to a store with no crash
residue succeeds, and reading the context name back yields an in-memory
context field-for-field equal to the original (same requests, resolutions
sequence, graph cache including all hashes, and pinned libraries/binaries). -/
theorem claim_C5_roundtrip (c : Context) (fs : FS)
    (h1 : fs.tmp_new = none) (h2 : fs.tmp_old = none) :
    ∃ fs2, write fs c = Except.ok fs2 ∧ readContext fs2 c.name = Except.ok c := by
  have hfs2 : write fs c =
      Except.ok { tmp_new := none, dest := some (stagePayload c), tmp_old := none } := by
    unfold write writeStep5 writeStep4 writeStep3 writeStep2
    rw [h1, h2]
    cases hfd : fs.dest <;> simp [hfd, h1, h2]
  refine ⟨_, hfs2, ?_⟩
  unfold readContext
  simp only [Option.isSome_none, Bool.or_self, Bool.false_eq_true, if_false]
  have hspecs : (stagePayload c).fullSpecs.map (fun q => (q.1, Spec.from_dict q.2)) =
      c.specs_by_hash := by
    unfold stagePayload
    exact specs_roundtrip c.specs_by_hash
  rw [hspecs]
  rfl

/-- A concrete nonempty context for the C5 witness. -/
def c5W : Context :=
  { name := "w", user_specs := ["libelf"],
    concretized_order := [{ root := "libelf", nodes := [] }],
    specs_by_hash := [({ root := "libelf", nodes := [] },
                       { root := "libelf", nodes := [] })],
    common_libs := [("zlib", { root := "zlib", nodes := [] })],
    common_bins := [("tar", { root := "tar", nodes := [] })] }

/-- Witness for C5 at a concrete nonempty context. -/
theorem claim_C5_roundtrip_witness :
    ∃ fs2, write { tmp_new := none, dest := none, tmp_old := none } c5W = Except.ok fs2 ∧
      readContext fs2 c5W.name = Except.ok c5W :=
  claim_C5_roundtrip c5W { tmp_new := none, dest := none, tmp_old := none } rfl rfl

/-! ### Claim C6: targeted dependency upgrade -/

/-- The resolved roots that contain `dep_name`, in `concretized_order` order,
looked up in the given graph cache. -/
def affectedRoots (dep_name : String) (sbh : List (SpecHash × CSpec))
    (order : List SpecHash) : List CSpec :=
  order.filterMap (fun h =>
    (lookupDict sbh h).bind (fun s => if s.containsName dep_name then some s else none))

theorem head_filterMap_of_isSome {α β : Type} (f : α → Option β) :
    ∀ l : List α, (∀ a ∈ l, (f a).isSome = true) →
      (l.filterMap f).head? = l.head?.bind f
  | [], _ => rfl
  | a :: t, h => by
    cases hf : f a with
    | none =>
      have := h a (List.mem_cons_self a t)
      rw [hf] at this
      simp at this
    | some b => simp [List.filterMap_cons, hf]

theorem affectedRoots_contains (dep : String) (sbh : List (SpecHash × CSpec))
    (order : List SpecHash) :
    ∀ s ∈ affectedRoots dep sbh order, s.containsName dep = true := by
  intro s hs
  rcases List.mem_filterMap.mp hs with ⟨h, _, hf⟩
  cases hl : lookupDict sbh h with
  | none => rw [hl] at hf; simp at hf
  | some s2 =>
    rw [hl] at hf
    by_cases hc : s2.containsName dep = true
    · rw [Option.some_bind, if_pos hc] at hf
      cases hf
      exact hc
    · rw [Option.some_bind, if_neg hc] at hf
      simp at hf

theorem upgradeLoop_ok (R : Resolver) (dep : String) (sbh0 : List (SpecHash × CSpec))
    (Hdep : ∀ s : CSpec, s.containsName dep = true →
      ((R.upgradeDep s dep).getDep dep).isSome = true)
    (order : List SpecHash) :
    ∀ sbh : List (SpecHash × CSpec),
      (∀ h ∈ order, lookupDict sbh h = lookupDict sbh0 h) →
      (∀ h ∈ order, (lookupDict sbh0 h).isSome = true) →
      (∀ (s : CSpec) (h : SpecHash), h ∈ order → (R.upgradeDep s dep).dag_hash ≠ h) →
      ∃ r : List SpecHash × List (SpecHash × CSpec) × List Node,
        upgradeLoop R dep sbh order = Except.ok r ∧
        r.1.length = order.length ∧
        (∀ (i : Nat) (h : SpecHash) (s : CSpec),
          order[i]? = some h → lookupDict sbh0 h = some s →
          s.containsName dep = false → r.1[i]? = some h) ∧
        r.2.2 = (affectedRoots dep sbh0 order).filterMap
          (fun s => (R.upgradeDep s dep).getDep dep) := by
  induction order with
  | nil =>
    intro sbh _ _ _
    exact ⟨([], sbh, []), rfl, rfl, by intro i h s hi; simp at hi, rfl⟩
  | cons hh rest IH =>
    intro sbh Hl Hs Hf
    have hl0 : lookupDict sbh hh = lookupDict sbh0 hh :=
      Hl hh (List.mem_cons_self hh rest)
    obtain ⟨s0, hs0⟩ : ∃ s0, lookupDict sbh0 hh = some s0 := by
      have hx := Hs hh (List.mem_cons_self hh rest)
      cases hy : lookupDict sbh0 hh with
      | none => rw [hy] at hx; simp at hx
      | some s0 => exact ⟨s0, rfl⟩
    have haff : affectedRoots dep sbh0 (hh :: rest) =
        (if s0.containsName dep = true then [s0] else []) ++ affectedRoots dep sbh0 rest := by
      unfold affectedRoots
      rw [List.filterMap_cons, hs0, Option.some_bind]
      by_cases hc : s0.containsName dep = true
      · rw [if_pos hc, if_pos hc]; rfl
      · rw [if_neg hc, if_neg hc]; rfl
    by_cases hc : s0.containsName dep = true
    · have hgd := Hdep s0 hc
      obtain ⟨d, hd⟩ : ∃ d, (R.upgradeDep s0 dep).getDep dep = some d := by
        cases hz : (R.upgradeDep s0 dep).getDep dep with
        | none => rw [hz] at hgd; simp at hgd
        | some d => exact ⟨d, rfl⟩
      obtain ⟨r, hr, hlen, hidx, hds⟩ :=
        IH (insertDict sbh (R.upgradeDep s0 dep).dag_hash (R.upgradeDep s0 dep))
          (fun h2 hm => by
            rw [lookupDict_insert_ne _ _ _ _
              (Ne.symm (Hf s0 h2 (List.mem_cons_of_mem hh hm)))]
            exact Hl h2 (List.mem_cons_of_mem hh hm))
          (fun h2 hm => Hs h2 (List.mem_cons_of_mem hh hm))
          (fun s2 h2 hm => Hf s2 h2 (List.mem_cons_of_mem hh hm))
      refine ⟨((R.upgradeDep s0 dep).dag_hash :: r.1, r.2.1, d :: r.2.2), ?_, ?_, ?_, ?_⟩
      · simp only [upgradeLoop]
        rw [hl0, hs0]
        simp only [hc, if_true, hd, hr]
      · simp [hlen]
      · intro i h s hi hlk hcf
        cases i with
        | zero =>
          simp only [List.getElem?_cons_zero, Option.some.injEq] at hi
          subst hi
          rw [hs0] at hlk
          cases hlk
          rw [hc] at hcf
          cases hcf
        | succ j =>
          simp only [List.getElem?_cons_succ] at hi ⊢
          exact hidx j h s hi hlk hcf
      · rw [haff, if_pos hc]
        simp only [List.cons_append, List.nil_append, List.filterMap_cons, hd]
        rw [hds]
    · obtain ⟨r, hr, hlen, hidx, hds⟩ :=
        IH sbh
          (fun h2 hm => Hl h2 (List.mem_cons_of_mem hh hm))
          (fun h2 hm => Hs h2 (List.mem_cons_of_mem hh hm))
          (fun s2 h2 hm => Hf s2 h2 (List.mem_cons_of_mem hh hm))
      refine ⟨(hh :: r.1, r.2.1, r.2.2), ?_, ?_, ?_, ?_⟩
      · simp only [upgradeLoop]
        rw [hl0, hs0]
        simp only [hc, if_false, hr]
        rfl
      · simp [hlen]
      · intro i h s hi hlk hcf
        cases i with
        | zero =>
          simp only [List.getElem?_cons_zero, Option.some.injEq] at hi ⊢
          exact hi
        | succ j =>
          simp only [List.getElem?_cons_succ] at hi ⊢
          exact hidx j h s hi hlk hcf
      · rw [haff, if_neg hc]
        simpa using hds

/-- C6: `upgrade_dependency(dep_name, dry_run=False)` succeeds (given that the
graph cache covers the resolved roots, re-resolution keeps the requested
dependency, and re-resolved graphs have fresh hashes); every resolved root not
containing a node named `dep_name` keeps its hash unchanged at the same
position in the new resolutions sequence; and the operation returns the first
newly resolved `dep_name` node across all affected roots — nothing if no root
contains `dep_name`. -/
theorem claim_C6_upgrade (R : Resolver) (c : Context) (dep : String)
    (Hs : ∀ h ∈ c.concretized_order, (lookupDict c.specs_by_hash h).isSome = true)
    (Hdep : ∀ s : CSpec, s.containsName dep = true →
      ((R.upgradeDep s dep).getDep dep).isSome = true)
    (Hfresh : ∀ (s : CSpec) (h : SpecHash), h ∈ c.concretized_order →
      (R.upgradeDep s dep).dag_hash ≠ h) :
    ∃ (c2 : Context) (ret : Option Node),
      Context.upgrade_dependency R c dep false = Except.ok (c2, ret) ∧
      c2.concretized_order.length = c.concretized_order.length ∧
      (∀ (i : Nat) (h : SpecHash) (s : CSpec), c.concretized_order[i]? = some h →
        lookupDict c.specs_by_hash h = some s →
        s.containsName dep = false → c2.concretized_order[i]? = some h) ∧
      ret = (affectedRoots dep c.specs_by_hash c.concretized_order).head?.bind
        (fun s => (R.upgradeDep s dep).getDep dep) ∧
      (affectedRoots dep c.specs_by_hash c.concretized_order = [] ↔ ret = none) := by
  obtain ⟨r, hr, hlen, hidx, hds⟩ :=
    upgradeLoop_ok R dep c.specs_by_hash Hdep c.concretized_order c.specs_by_hash
      (fun _ _ => rfl) Hs Hfresh
  refine ⟨{ c with concretized_order := r.1, specs_by_hash := r.2.1 },
    r.2.2.head?, ?_, hlen, hidx, ?_, ?_⟩
  · simp [Context.upgrade_dependency, hr]
  · rw [hds]
    exact head_filterMap_of_isSome _ _
      (fun s hs => Hdep s (affectedRoots_contains dep c.specs_by_hash c.concretized_order s hs))
  · constructor
    · intro he
      rw [hds, he]
      rfl
    · intro hn
      cases haff : affectedRoots dep c.specs_by_hash c.concretized_order with
      | nil => rfl
      | cons a t =>
        exfalso
        rw [hds, haff] at hn
        have hca := affectedRoots_contains dep c.specs_by_hash c.concretized_order a
          (haff ▸ List.mem_cons_self a t)
        have hga := Hdep a hca
        cases hz : (R.upgradeDep a dep).getDep dep with
        | none => rw [hz] at hga; simp at hga
        | some d => simp [List.filterMap_cons, hz] at hn

/-- A root whose graph contains the dependency `libx`. -/
def c6sA : CSpec :=
  { root := "app",
    nodes := [{ name := "app", version := 1, deps := [(DepType.link, "libx")] },
              { name := "libx", version := 1, deps := [] }] }

/-- A root whose graph does not contain `libx`. -/
def c6sB : CSpec :=
  { root := "other", nodes := [{ name := "other", version := 1, deps := [] }] }

/-- The re-resolved upgrade of `c6sA` with a newer `libx`. -/
def c6sUp : CSpec :=
  { root := "app",
    nodes := [{ name := "app", version := 1, deps := [(DepType.link, "libx")] },
              { name := "libx", version := 2, deps := [] }] }

/-- A concrete resolver for the C6 witness. -/
def c6R : Resolver :=
  { parseName := fun s => s, conc := fun s => { root := s, nodes := [] },
    upgradeDep := fun _ _ => c6sUp }

/-- A concrete two-root context for the C6 witness. -/
def c6C : Context :=
  { name := "u", user_specs := ["app", "other"],
    concretized_order := [c6sA, c6sB],
    specs_by_hash := [(c6sA, c6sA), (c6sB, c6sB)],
    common_libs := [], common_bins := [] }

/-- Witness for C6 at a concrete two-root context. -/
theorem claim_C6_upgrade_witness :
    ∃ (c2 : Context) (ret : Option Node),
      Context.upgrade_dependency c6R c6C "libx" false = Except.ok (c2, ret) ∧
      c2.concretized_order.length = c6C.concretized_order.length ∧
      (∀ (i : Nat) (h : SpecHash) (s : CSpec), c6C.concretized_order[i]? = some h →
        lookupDict c6C.specs_by_hash h = some s →
        s.containsName "libx" = false → c2.concretized_order[i]? = some h) ∧
      ret = (affectedRoots "libx" c6C.specs_by_hash c6C.concretized_order).head?.bind
        (fun s => (c6R.upgradeDep s "libx").getDep "libx") ∧
      (affectedRoots "libx" c6C.specs_by_hash c6C.concretized_order = [] ↔ ret = none) :=
  claim_C6_upgrade c6R c6C "libx" (by decide)
    (fun s _ => show (c6sUp.getDep "libx").isSome = true by decide)
    (by
      intro s h hm
      simp only [c6C, List.mem_cons, List.not_mem_nil, or_false] at hm
      rcases hm with rfl | rfl
      · exact (by decide : c6sUp ≠ c6sA)
      · exact (by decide : c6sUp ≠ c6sB))

/-! ### Claim C2: the context invariant -/

theorem getElemQ_drop {α : Type} :
    ∀ (n : Nat) (l : List α) (i : Nat), (l.drop n)[i]? = l[n + i]?
  | 0, l, i => by simp
  | n + 1, [], i => by simp
  | n + 1, a :: t, i => by
    simp only [List.drop_succ_cons]
    rw [getElemQ_drop n t i]
    have : n + 1 + i = (n + i) + 1 := by omega
    rw [this, List.getElem?_cons_succ]

theorem getElemQ_eraseIdx_lt {α : Type} :
    ∀ (l : List α) (i j : Nat), j < i → (l.eraseIdx i)[j]? = l[j]?
  | [], _, _, _ => by simp
  | _ :: _, 0, _, h => by omega
  | a :: t, i + 1, 0, _ => by simp [List.eraseIdx_cons_succ]
  | a :: t, i + 1, j + 1, h => by
    simp only [List.eraseIdx_cons_succ, List.getElem?_cons_succ]
    exact getElemQ_eraseIdx_lt t i j (by omega)

theorem getElemQ_eraseIdx_ge {α : Type} :
    ∀ (l : List α) (i j : Nat), i ≤ j → (l.eraseIdx i)[j]? = l[j + 1]?
  | [], _, _, _ => by simp
  | a :: t, 0, j, _ => by simp [List.eraseIdx_cons_zero]
  | _ :: _, i + 1, 0, h => by omega
  | a :: t, i + 1, j + 1, h => by
    simp only [List.eraseIdx_cons_succ, List.getElem?_cons_succ]
    exact getElemQ_eraseIdx_ge t i j (by omega)

/-- The C2 invariant: request names are unique, the resolution sequence is a
prefix-aligned image of the requests, and every resolution hash is cached. -/
def CtxInv (R : Resolver) (c : Context) : Prop :=
  (c.user_specs.map R.parseName).Nodup ∧
  c.concretized_order.length ≤ c.user_specs.length ∧
  (∀ i : Nat, i < c.concretized_order.length →
    c.concretized_order[i]? = (c.user_specs[i]?).map (fun u => (R.conc u).dag_hash)) ∧
  (∀ h ∈ c.concretized_order, (lookupDict c.specs_by_hash h).isSome = true)

theorem CtxInv_order_nodup (R : Resolver)
    (hname : ∀ s, (R.conc s).root = R.parseName s) (c : Context) (hI : CtxInv R c) :
    c.concretized_order.Nodup := by
  obtain ⟨h1, h2, h3, _⟩ := hI
  have heq : c.concretized_order =
      (c.user_specs.take c.concretized_order.length).map (fun u => (R.conc u).dag_hash) := by
    apply List.ext_getElem?
    intro n
    by_cases hn : n < c.concretized_order.length
    · rw [h3 n hn, List.getElem?_map, List.getElem?_take_of_lt hn]
    · rw [List.getElem?_eq_none (by omega), List.getElem?_eq_none]
      rw [List.length_map, List.length_take]
      omega
  rw [heq]
  apply List.Nodup.map_on
  · intro x hx y hy hf
    have hcc : R.conc x = R.conc y := hf
    have hr : (R.conc x).root = (R.conc y).root := by rw [hcc]
    rw [hname, hname] at hr
    exact List.inj_on_of_nodup_map h1 (List.mem_of_mem_take hx) (List.mem_of_mem_take hy) hr
  · exact (List.take_sublist _ _).nodup (List.Nodup.of_map _ h1)

theorem getElem_not_mem_eraseIdx {α : Type} (l : List α) (i : Nat) (hi : i < l.length)
    (hn : l.Nodup) : l[i] ∉ l.eraseIdx i := by
  intro hmem
  rw [List.eraseIdx_eq_take_drop_succ] at hmem
  have hsplit : l = l.take i ++ l[i] :: l.drop (i + 1) := by
    conv_lhs => rw [← List.take_append_drop i l]
    rw [List.drop_eq_getElem_cons hi]
  rw [hsplit, List.nodup_append] at hn
  obtain ⟨_, hn2, hdisj⟩ := hn
  rcases List.mem_append.mp hmem with hmt | hmd
  · exact hdisj hmt (List.mem_cons_self _ _)
  · rw [List.nodup_cons] at hn2
    exact hn2.1 hmd

theorem CtxInv_empty (R : Resolver) (name : String) : CtxInv R (Context.empty name) := by
  refine ⟨by simp [Context.empty], by simp [Context.empty], ?_, ?_⟩
  · intro i hi
    simp [Context.empty] at hi
  · intro h hm
    simp [Context.empty] at hm

theorem CtxInv_add (R : Resolver) (c : Context) (s : String) (hI : CtxInv R c) :
    CtxInv R (runOp R c (Op.addOp s)) := by
  obtain ⟨h1, h2, h3, h4⟩ := hI
  cases hadd : Context.add R c s with
  | error e =>
    have : runOp R c (Op.addOp s) = c := by simp [runOp, hadd]
    rw [this]
    exact ⟨h1, h2, h3, h4⟩
  | ok c2 =>
    have hres : runOp R c (Op.addOp s) = c2 := by simp [runOp, hadd]
    rw [hres]
    unfold Context.add at hadd
    by_cases hany : c.user_specs.any (fun x => decide (R.parseName x = R.parseName s)) = true
    · rw [if_pos hany] at hadd
      cases hadd
    · rw [if_neg hany] at hadd
      cases hadd
      refine ⟨?_, ?_, ?_, h4⟩
      · rw [List.map_append, List.nodup_append]
        refine ⟨h1, by simp, ?_⟩
        intro a ha hb
        rcases List.mem_map.mp ha with ⟨x, hx, rfl⟩
        simp only [List.map_cons, List.map_nil, List.mem_singleton] at hb
        exact hany (List.any_eq_true.mpr ⟨x, hx, by simpa using hb⟩)
      · simp only [List.length_append, List.length_singleton]
        omega
      · intro i hi
        have hi2 : i < c.concretized_order.length := hi
        show c.concretized_order[i]? =
          ((c.user_specs ++ [s])[i]?).map (fun u => (R.conc u).dag_hash)
        rw [h3 i hi2, List.getElem?_append_left (by omega)]

theorem CtxInv_remove (R : Resolver) (hname : ∀ s, (R.conc s).root = R.parseName s)
    (c : Context) (q : String) (hI : CtxInv R c) :
    CtxInv R (runOp R c (Op.removeOp q)) := by
  obtain ⟨h1, h2, h3, h4⟩ := hI
  cases hrem : Context.remove R c q with
  | error e =>
    have hres : runOp R c (Op.removeOp q) = c := by simp [runOp, hrem]
    rw [hres]
    exact ⟨h1, h2, h3, h4⟩
  | ok c2 =>
    have hres : runOp R c (Op.removeOp q) = c2 := by simp [runOp, hrem]
    rw [hres]
    unfold Context.remove at hrem
    split at hrem
    · cases hrem
    · rename_i i hidx
      have hilen : i < c.user_specs.length :=
        (List.findIdx?_eq_some_iff_findIdx_eq.mp hidx).1
      by_cases hio : i < c.concretized_order.length
      · rw [dif_pos hio] at hrem
        have hsome : (lookupDict c.specs_by_hash
            (c.concretized_order.get ⟨i, hio⟩)).isSome = true :=
          h4 _ (List.get_mem _ _ _)
        obtain ⟨sp, hsp⟩ : ∃ sp, lookupDict c.specs_by_hash
            (c.concretized_order.get ⟨i, hio⟩) = some sp := by
          cases hx : lookupDict c.specs_by_hash (c.concretized_order.get ⟨i, hio⟩) with
          | none => rw [hx] at hsome; simp at hsome
          | some sp => exact ⟨sp, rfl⟩
        simp only [hsp] at hrem
        cases hrem
        refine ⟨?_, ?_, ?_, ?_⟩
        · exact ((List.eraseIdx_sublist _ _).map R.parseName).nodup h1
        · show (c.concretized_order.eraseIdx i).length ≤ (c.user_specs.eraseIdx i).length
          rw [List.length_eraseIdx, List.length_eraseIdx]
          simp only [hio, hilen, if_true]
          omega
        · intro j hj
          have hjlen : j < c.concretized_order.length - 1 := by
            have := hj
            rw [List.length_eraseIdx] at this
            simpa [hio] using this
          show (c.concretized_order.eraseIdx i)[j]? =
            ((c.user_specs.eraseIdx i)[j]?).map (fun u => (R.conc u).dag_hash)
          by_cases hji : j < i
          · rw [getElemQ_eraseIdx_lt _ _ _ hji, getElemQ_eraseIdx_lt _ _ _ hji,
              h3 j (by omega)]
          · have hij : i ≤ j := by omega
            rw [getElemQ_eraseIdx_ge _ _ _ hij, getElemQ_eraseIdx_ge _ _ _ hij,
              h3 (j + 1) (by omega)]
        · intro h hm
          have hmem : h ∈ c.concretized_order := List.mem_of_mem_eraseIdx hm
          have hord : c.concretized_order.Nodup :=
            CtxInv_order_nodup R hname c ⟨h1, h2, h3, h4⟩
          have hne : h ≠ c.concretized_order.get ⟨i, hio⟩ := by
            intro he
            subst he
            exact getElem_not_mem_eraseIdx c.concretized_order i hio hord hm
          rw [lookupDict_eraseKey_ne _ _ _ hne]
          exact h4 h hmem
      · rw [dif_neg hio] at hrem
        cases hrem
        refine ⟨?_, ?_, ?_, h4⟩
        · exact ((List.eraseIdx_sublist _ _).map R.parseName).nodup h1
        · show c.concretized_order.length ≤ (c.user_specs.eraseIdx i).length
          rw [List.length_eraseIdx]
          simp only [hilen, if_true]
          omega
        · intro j hj
          have hj2 : j < c.concretized_order.length := hj
          show c.concretized_order[j]? =
            ((c.user_specs.eraseIdx i)[j]?).map (fun u => (R.conc u).dag_hash)
          rw [getElemQ_eraseIdx_lt _ _ _ (by omega), h3 j hj2]

theorem concLoop_map_isSome (R : Resolver) :
    ∀ (l : List String) (sbh : List (SpecHash × CSpec)) (h : SpecHash),
      (lookupDict sbh h).isSome = true → (lookupDict (concLoop R l sbh).1 h).isSome = true
  | [], _, _, hs => hs
  | _ :: t, _, h, hs =>
    concLoop_map_isSome R t _ h (lookupDict_insert_isSome _ _ _ _ hs)

theorem concLoop_map_new (R : Resolver) :
    ∀ (l : List String) (sbh : List (SpecHash × CSpec)) (u : String), u ∈ l →
      (lookupDict (concLoop R l sbh).1 (R.conc u).dag_hash).isSome = true
  | [], _, u, hu => by simp at hu
  | v :: t, sbh, u, hu => by
    rcases List.mem_cons.mp hu with rfl | hu2
    · exact concLoop_map_isSome R t _ _ (by rw [lookupDict_insert_self]; rfl)
    · exact concLoop_map_new R t _ u hu2

theorem CtxInv_conc (R : Resolver) (c : Context) (hI : CtxInv R c) :
    CtxInv R (runOp R c Op.concOp) := by
  obtain ⟨h1, h2, h3, h4⟩ := hI
  show CtxInv R (Context.concretize R c).1
  unfold Context.concretize
  refine ⟨h1, ?_, ?_, ?_⟩
  · show (c.concretized_order ++
      (concLoop R (c.user_specs.drop c.concretized_order.length) c.specs_by_hash).2.1).length ≤
      c.user_specs.length
    rw [concLoop_order]
    simp only [List.length_append, List.length_map, List.length_drop]
    omega
  · intro j hj
    have hj2 : j < (c.concretized_order ++
        (concLoop R (c.user_specs.drop c.concretized_order.length) c.specs_by_hash).2.1).length :=
      hj
    rw [concLoop_order] at hj2
    simp only [List.length_append, List.length_map, List.length_drop] at hj2
    show (c.concretized_order ++
      (concLoop R (c.user_specs.drop c.concretized_order.length) c.specs_by_hash).2.1)[j]? =
      (c.user_specs[j]?).map (fun u => (R.conc u).dag_hash)
    rw [concLoop_order]
    by_cases hjo : j < c.concretized_order.length
    · rw [List.getElem?_append_left hjo, h3 j hjo]
    · rw [List.getElem?_append_right (by omega), List.getElem?_map, getElemQ_drop]
      have harith : c.concretized_order.length + (j - c.concretized_order.length) = j := by
        omega
      rw [harith]
  · intro h hm
    have hm2 : h ∈ c.concretized_order ++
        (concLoop R (c.user_specs.drop c.concretized_order.length) c.specs_by_hash).2.1 := hm
    rcases List.mem_append.mp hm2 with hmo | hmn
    · exact concLoop_map_isSome R _ _ h (h4 h hmo)
    · rw [concLoop_order] at hmn
      rcases List.mem_map.mp hmn with ⟨u, hu, rfl⟩
      exact concLoop_map_new R _ _ u hu

theorem CtxInv_runOp (R : Resolver) (hname : ∀ s, (R.conc s).root = R.parseName s)
    (c : Context) (op : Op) (hI : CtxInv R c) : CtxInv R (runOp R c op) := by
  cases op with
  | addOp s => exact CtxInv_add R c s hI
  | removeOp q => exact CtxInv_remove R hname c q hI
  | concOp => exact CtxInv_conc R c hI

theorem CtxInv_foldl (R : Resolver) (hname : ∀ s, (R.conc s).root = R.parseName s) :
    ∀ (ops : List Op) (c : Context), CtxInv R c → CtxInv R (ops.foldl (runOp R) c)
  | [], _, hI => hI
  | op :: t, c, hI =>
    CtxInv_foldl R hname t (runOp R c op) (CtxInv_runOp R hname c op hI)

/-- C2: after every sequence of `add`, `remove` and `concretize` operations
starting from an empty context, `len(resolutions) ≤ len(requests)`,
`resolutions[i]` is (the hash of) the resolution of `requests[i]` for every
`i < len(resolutions)`, and every hash appearing in `resolutions` is a key of
`graphs_by_hash`.  The hypothesis states that external concretization resolves
a request to a graph rooted at the request's package name. -/
theorem claim_C2_invariant (R : Resolver)
    (hname : ∀ s, (R.conc s).root = R.parseName s) (name : String) (ops : List Op) :
    (runOps R name ops).concretized_order.length ≤ (runOps R name ops).user_specs.length ∧
    (∀ i : Nat, i < (runOps R name ops).concretized_order.length →
      (runOps R name ops).concretized_order[i]? =
        ((runOps R name ops).user_specs[i]?).map (fun u => (R.conc u).dag_hash)) ∧
    (∀ h ∈ (runOps R name ops).concretized_order,
      (lookupDict (runOps R name ops).specs_by_hash h).isSome = true) := by
  have hI : CtxInv R (runOps R name ops) :=
    CtxInv_foldl R hname ops (Context.empty name) (CtxInv_empty R name)
  exact ⟨hI.2.1, hI.2.2.1, hI.2.2.2⟩

/-- A concrete resolver for the C2 witness: a request resolves to a one-node
graph carrying the request's name. -/
def c2R : Resolver :=
  { parseName := fun s => s,
    conc := fun s => { root := s, nodes := [{ name := s, version := 1, deps := [] }] },
    upgradeDep := fun s _ => s }

/-- Witness for C2 on a concrete operation sequence mixing add, concretize
and remove. -/
theorem claim_C2_invariant_witness :
    (runOps c2R "w2" [Op.addOp "a", Op.concOp, Op.addOp "b", Op.removeOp "a",
        Op.concOp]).concretized_order.length ≤
      (runOps c2R "w2" [Op.addOp "a", Op.concOp, Op.addOp "b", Op.removeOp "a",
        Op.concOp]).user_specs.length ∧
    (∀ i : Nat, i < (runOps c2R "w2" [Op.addOp "a", Op.concOp, Op.addOp "b", Op.removeOp "a",
        Op.concOp]).concretized_order.length →
      (runOps c2R "w2" [Op.addOp "a", Op.concOp, Op.addOp "b", Op.removeOp "a",
        Op.concOp]).concretized_order[i]? =
        ((runOps c2R "w2" [Op.addOp "a", Op.concOp, Op.addOp "b", Op.removeOp "a",
          Op.concOp]).user_specs[i]?).map (fun u => (c2R.conc u).dag_hash)) ∧
    (∀ h ∈ (runOps c2R "w2" [Op.addOp "a", Op.concOp, Op.addOp "b", Op.removeOp "a",
        Op.concOp]).concretized_order,
      (lookupDict (runOps c2R "w2" [Op.addOp "a", Op.concOp, Op.addOp "b", Op.removeOp "a",
        Op.concOp]).specs_by_hash h).isSome = true) :=
  claim_C2_invariant c2R (fun _ => rfl) "w2"
    [Op.addOp "a", Op.concOp, Op.addOp "b", Op.removeOp "a", Op.concOp]

/-! ### Claim C4: flatten with first-writer-wins and conflict warnings -/

theorem travGo_nodup (nodes : List Node) (dts : List DepType) :
    ∀ (fuel : Nat) (stack : List String) (v : List Node),
      ((v.map Node.name).Nodup) →
      (∃ t, travGo nodes dts fuel v stack = v ++ t) ∧
        ((travGo nodes dts fuel v stack).map Node.name).Nodup := by
  intro fuel
  induction fuel with
  | zero =>
    intro stack v hv
    exact ⟨⟨[], by simp [travGo]⟩, by simpa [travGo] using hv⟩
  | succ f IH =>
    intro stack v hv
    cases stack with
    | nil => exact ⟨⟨[], by simp [travGo]⟩, by simpa [travGo] using hv⟩
    | cons cur rest =>
      by_cases hvis : v.any (fun nd => decide (nd.name = cur)) = true
      · have he : travGo nodes dts (f + 1) v (cur :: rest) = travGo nodes dts f v rest := by
          simp [travGo, hvis]
        rw [he]
        exact IH rest v hv
      · cases hfind : nodes.find? (fun nd => decide (nd.name = cur)) with
        | none =>
          have he : travGo nodes dts (f + 1) v (cur :: rest) = travGo nodes dts f v rest := by
            simp [travGo, hvis, hfind]
          rw [he]
          exact IH rest v hv
        | some nd =>
          have he : travGo nodes dts (f + 1) v (cur :: rest) =
              travGo nodes dts f (travGo nodes dts f (v ++ [nd]) (depsOf nd dts)) rest := by
            simp [travGo, hvis, hfind]
          rw [he]
          have hnd : nd.name = cur := by
            have := List.find?_some hfind
            simpa using this
          have hnot : cur ∉ v.map Node.name := by
            intro hc
            rcases List.mem_map.mp hc with ⟨x, hx, hxn⟩
            exact hvis (List.any_eq_true.mpr ⟨x, hx, by simpa using hxn⟩)
          have hv2 : ((v ++ [nd]).map Node.name).Nodup := by
            rw [List.map_append, List.nodup_append]
            refine ⟨hv, by simp, ?_⟩
            intro a ha hb
            simp only [List.map_cons, List.map_nil, List.mem_singleton] at hb
            subst hb
            exact hnot (hnd ▸ ha)
          obtain ⟨⟨t1, ht1⟩, hn1⟩ := IH (depsOf nd dts) (v ++ [nd]) hv2
          obtain ⟨⟨t2, ht2⟩, hn2⟩ := IH rest _ hn1
          exact ⟨⟨[nd] ++ t1 ++ t2, by rw [ht2, ht1]; simp⟩, hn2⟩

theorem traverse_names_nodup (s : CSpec) (dts : List DepType) :
    ((s.traverse dts).map Node.name).Nodup :=
  (travGo_nodup s.nodes dts (fuelFor s) [s.root] [] (by simp)).2

theorem find_name_of_nodup :
    ∀ l : List Node, ((l.map Node.name).Nodup) → ∀ p ∈ l,
      l.find? (fun d => decide (d.name = p.name)) = some p
  | [], _, p, hp => by simp at hp
  | q :: t, hn, p, hp => by
    rw [List.map_cons, List.nodup_cons] at hn
    by_cases hq : q.name = p.name
    · rcases List.mem_cons.mp hp with rfl | hpt
      · rw [List.find?_cons_of_pos _ (by simp)]
      · exact absurd (hq ▸ List.mem_map.mpr ⟨p, hpt, rfl⟩) hn.1
    · rcases List.mem_cons.mp hp with rfl | hpt
      · exact absurd rfl hq
      · rw [List.find?_cons_of_neg _ (by simp [hq])]
        exact find_name_of_nodup t hn.2 p hpt

theorem lookupDict_pairs (n : String) :
    ∀ l : List Node,
      lookupDict (l.map (fun d => (d.name, d))) n = l.find? (fun d => decide (d.name = n))
  | [] => rfl
  | d :: t => by
    by_cases hd : d.name = n
    · unfold lookupDict
      rw [List.map_cons, List.find?_cons_of_pos _ (by simpa using hd),
        List.find?_cons_of_pos _ (by simpa using hd)]
      rfl
    · unfold lookupDict
      rw [List.map_cons, List.find?_cons_of_neg _ (by simpa using hd),
        List.find?_cons_of_neg _ (by simpa using hd)]
      exact lookupDict_pairs n t

theorem envFold :
    ∀ (deps : List Node) (m : List (String × Node)) (w : List (Node × Node)),
      ((deps.map Node.name).Nodup) →
      deps.foldl envStep (m, w) =
        (m ++ (deps.filter (fun d => (lookupDict m d.name).isNone)).map (fun d => (d.name, d)),
         w ++ deps.filterMap (fun d => (lookupDict m d.name).map (fun x => (x, d))))
  | [], m, w, _ => by simp
  | d :: t, m, w, hn => by
    rw [List.map_cons, List.nodup_cons] at hn
    rw [List.foldl_cons]
    cases hl : lookupDict m d.name with
    | some x =>
      have hstep : envStep (m, w) d = (m, w ++ [(x, d)]) := by simp [envStep, hl]
      rw [hstep, envFold t m (w ++ [(x, d)]) hn.2]
      rw [Prod.mk.injEq]
      constructor
      · rw [List.filter_cons_of_neg (by simp [hl])]
      · rw [List.filterMap_cons]
        simp only [hl, Option.map_some']
        rw [List.append_assoc]
        rfl
    | none =>
      have hstep : envStep (m, w) d = (m ++ [(d.name, d)], w) := by simp [envStep, hl]
      have hlk : ∀ e ∈ t, lookupDict (m ++ [(d.name, d)]) e.name = lookupDict m e.name := by
        intro e he
        rw [lookupDict_append,
          lookupDict_singleton_ne _ _ _
            (fun hc => hn.1 (by rw [← hc]; exact List.mem_map.mpr ⟨e, he, rfl⟩))]
        cases lookupDict m e.name <;> rfl
      rw [hstep, envFold t (m ++ [(d.name, d)]) w hn.2]
      rw [Prod.mk.injEq]
      constructor
      · rw [List.filter_congr (fun e he => by rw [hlk e he]),
          List.filter_cons_of_pos (by simp [hl]), List.map_cons, List.append_assoc]
        rfl
      · rw [List.filterMap_congr (fun e he => by rw [hlk e he]), List.filterMap_cons]
        simp only [hl, Option.map_none']

theorem filterMap_single {γ : Type} :
    ∀ l : List Node, ((l.map Node.name).Nodup) → ∀ p ∈ l,
      ∀ (f : Node → Option γ) (b : γ), f p = some b →
      (∀ d ∈ l, d.name ≠ p.name → f d = none) →
      l.filterMap f = [b]
  | [], _, p, hp, _, _, _, _ => by simp at hp
  | q :: t, hn, p, hp, f, b, hb, hnone => by
    rw [List.map_cons, List.nodup_cons] at hn
    rcases List.mem_cons.mp hp with rfl | hpt
    · simp only [List.filterMap_cons, hb]
      have ht : t.filterMap f = [] :=
        List.filterMap_eq_nil_iff.mpr (fun d hd =>
          hnone d (List.mem_cons_of_mem _ hd)
            (fun hdn => hn.1 (by rw [← hdn]; exact List.mem_map.mpr ⟨d, hd, rfl⟩)))
      rw [ht]
    · have hqname : q.name ≠ p.name :=
        fun hc => hn.1 (by rw [hc]; exact List.mem_map.mpr ⟨p, hpt, rfl⟩)
      have hfq : f q = none := hnone q (List.mem_cons_self _ _) hqname
      simp only [List.filterMap_cons, hfq]
      exact filterMap_single t hn.2 p hpt f b hb
        (fun d hd hdn => hnone d (List.mem_cons_of_mem _ hd) hdn)

/-- C4: `flatten()` (`_get_environment_specs`) over resolved roots selects,
for each package name, the node contributed by the earliest root in
`resolutions` order (first writer wins); when two roots transitively depend
through `link`/`run` edges on different versions of the same package name,
exactly one non-fatal conflict warning is emitted naming both candidates, and
the later root's differing resolution for the already-selected name is
dropped. -/
theorem claim_C4_flatten (c : Context) (h1 h2 : SpecHash) (s1 s2 : CSpec)
    (n : String) (node1 node2 : Node)
    (horder : c.concretized_order = [h1, h2])
    (hl1 : lookupDict c.specs_by_hash h1 = some s1)
    (hl2 : lookupDict c.specs_by_hash h2 = some s2)
    (hm1 : node1 ∈ s1.traverse linkRun) (hn1 : node1.name = n)
    (hm2 : node2 ∈ s2.traverse linkRun) (hn2 : node2.name = n)
    (hv : node1.version ≠ node2.version)
    (hshared : ∀ p ∈ s1.traverse linkRun, ∀ q ∈ s2.traverse linkRun,
      p.name = q.name → p.name = n) :
    ∃ (pts : List (String × Node)) (warns : List (Node × Node)),
      c.get_environment_specs = Except.ok (pts, warns) ∧
      warns = [(node1, node2)] ∧
      lookupDict pts n = some node1 ∧
      lookupDict pts n ≠ some node2 ∧
      (∀ p ∈ s1.traverse linkRun, lookupDict pts p.name = some p) ∧
      (∀ q ∈ s2.traverse linkRun, q.name ≠ n → lookupDict pts q.name = some q) := by
  have hT1 : ((s1.traverse linkRun).map Node.name).Nodup := traverse_names_nodup s1 linkRun
  have hT2 : ((s2.traverse linkRun).map Node.name).Nodup := traverse_names_nodup s2 linkRun
  have hacc1 : (s1.traverse linkRun).foldl envStep ([], []) =
      ((s1.traverse linkRun).map (fun d => (d.name, d)), []) := by
    rw [envFold _ _ _ hT1]
    rw [List.filter_eq_self.mpr (fun a _ => by simp [lookupDict_nil]),
      List.filterMap_eq_nil_iff.mpr (fun a _ => by simp [lookupDict_nil])]
    simp
  have hpairs : ∀ nm : String,
      lookupDict ((s1.traverse linkRun).map (fun d => (d.name, d))) nm =
        (s1.traverse linkRun).find? (fun d => decide (d.name = nm)) :=
    fun nm => lookupDict_pairs nm _
  have hTn : lookupDict ((s1.traverse linkRun).map (fun d => (d.name, d))) n = some node1 := by
    rw [hpairs n, ← hn1]
    exact find_name_of_nodup _ hT1 node1 hm1
  have hTnone : ∀ q ∈ s2.traverse linkRun, q.name ≠ n →
      lookupDict ((s1.traverse linkRun).map (fun d => (d.name, d))) q.name = none := by
    intro q hq hqn
    rw [hpairs q.name]
    apply List.find?_eq_none.mpr
    intro p hp
    simp only [decide_eq_true_eq]
    intro hpq
    exact hqn (by rw [← hpq]; exact hshared p hp q hq hpq)
  have hcomp : c.get_environment_specs = Except.ok
      ((s2.traverse linkRun).foldl envStep
        ((s1.traverse linkRun).map (fun d => (d.name, d)), [])) := by
    unfold Context.get_environment_specs
    rw [horder]
    simp only [envLoop, hl1, hl2, hacc1]
  rw [envFold _ _ _ hT2] at hcomp
  refine ⟨_, _, hcomp, ?_, ?_, ?_, ?_, ?_⟩
  · rw [List.nil_append]
    apply filterMap_single _ hT2 node2 hm2 _ (node1, node2)
    · show (lookupDict ((s1.traverse linkRun).map (fun d => (d.name, d))) node2.name).map
        (fun x => (x, node2)) = some (node1, node2)
      rw [hn2, hTn]
      rfl
    · intro d hd hdn
      have hdl : lookupDict ((s1.traverse linkRun).map (fun d => (d.name, d))) d.name = none :=
        hTnone d hd (fun hc => hdn (hc.trans hn2.symm))
      show (lookupDict ((s1.traverse linkRun).map (fun d => (d.name, d))) d.name).map
        (fun x => (x, d)) = none
      rw [hdl]
      rfl
  · rw [lookupDict_append, hTn]
    rfl
  · intro hc
    rw [lookupDict_append, hTn] at hc
    have hnn : node1 = node2 := by simpa [Option.or] using hc
    exact hv (by rw [hnn])
  · intro p hp
    rw [lookupDict_append, hpairs p.name, find_name_of_nodup _ hT1 p hp]
    rfl
  · intro q hq hqn
    rw [lookupDict_append, hTnone q hq hqn]
    show lookupDict
      (((s2.traverse linkRun).filter
        (fun d => (lookupDict ((s1.traverse linkRun).map (fun e => (e.name, e))) d.name).isNone)).map
        (fun d => (d.name, d))) q.name = some q
    rw [lookupDict_pairs]
    have hkeepnodup : ((((s2.traverse linkRun).filter
        (fun d => (lookupDict ((s1.traverse linkRun).map (fun e => (e.name, e))) d.name).isNone))).map
        Node.name).Nodup :=
      ((List.filter_sublist _).map Node.name).nodup hT2
    have hqkeep : q ∈ (s2.traverse linkRun).filter
        (fun d => (lookupDict ((s1.traverse linkRun).map (fun e => (e.name, e))) d.name).isNone) :=
      List.mem_filter.mpr ⟨hq, by rw [hTnone q hq hqn]; rfl⟩
    exact find_name_of_nodup _ hkeepnodup q hqkeep

/-- First root of the C4 witness: `app-a` linking `lib` at version 10. -/
def c4sA : CSpec :=
  { root := "app-a",
    nodes := [{ name := "app-a", version := 1, deps := [(DepType.link, "lib")] },
              { name := "lib", version := 10, deps := [] }] }

/-- Second root of the C4 witness: `app-b` linking `lib` at version 20. -/
def c4sB : CSpec :=
  { root := "app-b",
    nodes := [{ name := "app-b", version := 1, deps := [(DepType.link, "lib")] },
              { name := "lib", version := 20, deps := [] }] }

/-- The two-root context of the C4 witness. -/
def c4C : Context :=
  { name := "f", user_specs := ["app-a", "app-b"],
    concretized_order := [c4sA, c4sB],
    specs_by_hash := [(c4sA, c4sA), (c4sB, c4sB)],
    common_libs := [], common_bins := [] }

/-- Witness for C4 at the concrete two-root context: `lib@10` wins, one
warning pairs it with the dropped `lib@20`. -/
theorem claim_C4_flatten_witness :
    ∃ (pts : List (String × Node)) (warns : List (Node × Node)),
      c4C.get_environment_specs = Except.ok (pts, warns) ∧
      warns = [({ name := "lib", version := 10, deps := [] },
                { name := "lib", version := 20, deps := [] })] ∧
      lookupDict pts "lib" = some { name := "lib", version := 10, deps := [] } ∧
      lookupDict pts "lib" ≠ some { name := "lib", version := 20, deps := [] } ∧
      (∀ p ∈ c4sA.traverse linkRun, lookupDict pts p.name = some p) ∧
      (∀ q ∈ c4sB.traverse linkRun, q.name ≠ "lib" → lookupDict pts q.name = some q) :=
  claim_C4_flatten c4C c4sA c4sB c4sA c4sB "lib"
    { name := "lib", version := 10, deps := [] }
    { name := "lib", version := 20, deps := [] }
    rfl (by decide) (by decide) (by decide) rfl (by decide) rfl (by decide) (by decide)
